import Mathlib

/-!
# Verification of the json2csv CSV writer

Shallow embedding of `csv_writer.go` (package `json2csv`).  Records are
mappings from JSON-pointer strings to (already stringified) scalar values;
the writer derives a deduplicated, sorted pointer set across all records,
renders it as a header in one of four styles, and projects every record
against that key order, producing row-major or transposed output.

The repository code under verification is `csv_writer.go`.  The helper
package `jsonpointer` (pointer tokenization, rendering and ordering), the
`KeyValue`/`CSVHeader` container types and the scalar stringification rule
live in files of the repository that are not part of the provided source;
those are modelled from the specification, as marked in their doc comments.
The output sink (Go's `csv.Writer`) is abstracted as the list of rows
delivered to it, paired with the error reported by a write operation.
-/

/-! ## Character-level escaping of JSON-pointer reference tokens -/

/-- Modelled from the spec: JSON-Pointer escaping of a reference token
(`~` becomes `~0`, `/` becomes `~1`), used when rendering a pointer back
to its string form. -/
def escapeSeg : List Char → List Char
  | [] => []
  | c :: rest =>
    if c = '~' then '~' :: '0' :: escapeSeg rest
    else if c = '/' then '~' :: '1' :: escapeSeg rest
    else c :: escapeSeg rest

/-- Modelled from the spec: JSON-Pointer unescaping of a reference token;
fails on a malformed escape sequence (`~` not followed by `0` or `1`). -/
def unescapeSeg : List Char → Option (List Char)
  | [] => some []
  | c :: rest =>
    if c = '~' then
      match rest with
      | [] => none
      | d :: rest2 =>
        if d = '0' then (unescapeSeg rest2).map (fun t => '~' :: t)
        else if d = '1' then (unescapeSeg rest2).map (fun t => '/' :: t)
        else none
    else (unescapeSeg rest).map (fun t => c :: t)

/-- Split a character list at every `/` (the separators of a JSON pointer
after the leading slash).  Always returns at least one segment. -/
def splitSlash : List Char → List (List Char)
  | [] => [[]]
  | c :: rest =>
    if c = '/' then [] :: splitSlash rest
    else
      match splitSlash rest with
      | [] => [[c]]
      | s :: ss => (c :: s) :: ss

/-- Rejoin segments with `/` separators; left inverse of `splitSlash`. -/
def joinSlash : List (List Char) → List Char
  | [] => []
  | s :: ss =>
    match ss with
    | [] => s
    | _ :: _ => s ++ '/' :: joinSlash ss

/-! ## Tokens and pointers -/

/-- Modelled from the spec: a pointer token is either a non-negative
integer array index or an opaque object-key name.  The original token
text is kept for rendering. -/
inductive Token where
  | index (n : Nat) (raw : List Char)
  | name (raw : List Char)
deriving DecidableEq

/-- The original text of a token. -/
def Token.raw : Token → List Char
  | .index _ r => r
  | .name r => r

/-- A token text denotes an array index iff it is a non-empty string of
decimal digits. -/
def isDigits (t : List Char) : Bool := !t.isEmpty && t.all (fun c => c.isDigit)

/-- Numeric value of a digit string. -/
def digitsVal (t : List Char) : Nat := t.foldl (fun n c => 10 * n + (c.toNat - 48)) 0

/-- Classify an unescaped token text as an index or a name. -/
def classify (t : List Char) : Token :=
  if isDigits t then .index (digitsVal t) t else .name t

/-- A parsed JSON pointer: its ordered token sequence. -/
abbrev Pointer := List Token

/-- Error raised when a record key cannot be tokenized as a JSON pointer. -/
inductive PointerError where
  | invalidPointer (s : String)
deriving DecidableEq

/-- Parse one segment of a pointer string into a token. -/
def parseSeg (seg : List Char) : Except PointerError Token :=
  match unescapeSeg seg with
  | some t => .ok (classify t)
  | none => .error (.invalidPointer (String.mk seg))

/-- Parse all segments of a pointer string. -/
def parseSegs : List (List Char) → Except PointerError (List Token)
  | [] => .ok []
  | s :: ss => do
    let t ← parseSeg s
    let ts ← parseSegs ss
    .ok (t :: ts)

/-- Modelled from the spec: `jsonpointer.New` — tokenize a pointer string.
The empty string is the whole-document pointer; a non-empty pointer must
start with `/` and its `/`-separated segments must unescape cleanly. -/
def parseChars (l : List Char) : Except PointerError (List Token) :=
  match l with
  | [] => .ok []
  | c :: rest =>
    if c = '/' then parseSegs (splitSlash rest)
    else .error (.invalidPointer (String.mk l))

/-- `jsonpointer.New` at the `String` interface. -/
def parsePointer (s : String) : Except PointerError Pointer := parseChars s.data

/-! ## Pointer rendering -/

/-- Render a pointer back to JSON-pointer character form
(`/`-prefixed, escaped segments). -/
def renderChars : List Token → List Char
  | [] => []
  | p => '/' :: joinSlash (p.map (fun t => escapeSeg t.raw))

/-- Modelled from the spec: `Pointer.String()` — the JSON-pointer-syntax
rendering (e.g. `/foo/bar/0/baz`). -/
def ptrString (p : Pointer) : String := String.mk (renderChars p)

/-- Modelled from the spec: slash-trimmed rendering (e.g. `foo/bar/0/baz`):
the token texts joined with `/` and no leading slash. -/
def slashRender (p : Pointer) : String := String.mk (joinSlash (p.map Token.raw))

/-- Join segments with `.` separators. -/
def joinDot : List (List Char) → List Char
  | [] => []
  | s :: ss =>
    match ss with
    | [] => s
    | _ :: _ => s ++ '.' :: joinDot ss

/-- Modelled from the spec: dot-notation rendering (e.g. `foo.bar.0.baz`):
token texts joined with `.`, indices indistinguishable from numeric keys. -/
def dotRender (p : Pointer) : String := String.mk (joinDot (p.map Token.raw))

/-- One step of the dot-bracket rendering: a name token is appended with a
`.` separator, an index token as `[N]` directly after the previous segment. -/
def dotBracketStep (acc : List Char) : Token → List Char
  | .index _ raw => acc ++ '[' :: (raw ++ [']'])
  | .name raw => if acc.isEmpty then raw else acc ++ '.' :: raw

/-- Modelled from the spec: dot-bracket rendering (e.g. `foo.bar[0].baz`). -/
def dotBracketRender (p : Pointer) : String := String.mk (p.foldl dotBracketStep [])

/-! ## Pointer ordering -/

/-- Byte-wise (code-point-wise) lexicographic comparison of token texts. -/
def chCmp : List Char → List Char → Ordering
  | [], [] => .eq
  | [], _ :: _ => .lt
  | _ :: _, [] => .gt
  | a :: s, b :: t =>
    if a.toNat < b.toNat then .lt
    else if b.toNat < a.toNat then .gt
    else chCmp s t

/-- Modelled from the spec: token comparison — two indices compare
numerically, two names byte-wise, and an index sorts before a name. -/
def tokenCmp : Token → Token → Ordering
  | .index m _, .index n _ => if m < n then .lt else if n < m then .gt else .eq
  | .index _ _, .name _ => .lt
  | .name _, .index _ _ => .gt
  | .name s, .name t => chCmp s t

/-- Modelled from the spec: token-wise lexicographic pointer comparison;
a strict prefix sorts first. -/
def ptrCmp : List Token → List Token → Ordering
  | [], [] => .eq
  | [], _ :: _ => .lt
  | _ :: _, [] => .gt
  | a :: s, b :: t =>
    match tokenCmp a b with
    | .eq => ptrCmp s t
    | o => o

/-- The non-strict order used for sorting the pointer set. -/
def ptrLe (p q : Pointer) : Bool :=
  match ptrCmp p q with
  | .gt => false
  | _ => true

/-- Insert a pointer into a list sorted by `ptrLe`. -/
def insertPtr (p : Pointer) : List Pointer → List Pointer
  | [] => [p]
  | q :: qs => if ptrLe p q then p :: q :: qs else q :: insertPtr p qs

/-- Modelled from the spec: `sort.Sort` on the pointer set with the
token-wise comparator (insertion sort; any sort by the same total
preorder yields the same list here because ties cannot occur between
distinct parsed keys up to their rendered strings). -/
def sortPtrs : List Pointer → List Pointer
  | [] => []
  | p :: ps => insertPtr p (sortPtrs ps)

/-- The sorted deduplicated key strings: `pts.Strings()` after sorting. -/
def sortedKeys (pts : List Pointer) : List String := (sortPtrs pts).map ptrString

/-! ## Records and the pointer set -/

/-- Modelled from the spec: a `KeyValue` record — a mapping from
pointer-string to scalar value.  Scalar values are abstracted by their
stringified cell text (the stringification rule is an external
collaborator), and the mapping is held as an association list whose keys
are unique in well-formed records. -/
abbrev KeyValue := List (String × String)

/-- Map lookup `kv[key]`. -/
def findVal : KeyValue → String → Option String
  | [], _ => none
  | (k, v) :: rest, key => if k = key then some v else findVal rest key

/-- Modelled from the spec: `KeyValue.Keys()` — the keys of a record. -/
def keysOf (kv : KeyValue) : List String := kv.map Prod.fst

/-- All record keys of a batch, in batch order. -/
def allKeys : List KeyValue → List String
  | [] => []
  | r :: rs => keysOf r ++ allKeys rs

/-- The loop body of `allPointers`: walk the keys, skip the ones already
seen, parse each new one, aborting on the first invalid pointer. -/
def collectPtrs : List String → List String → Except PointerError (List Pointer)
  | _, [] => .ok []
  | seen, k :: ks =>
    if k ∈ seen then collectPtrs seen ks
    else do
      let p ← parsePointer k
      let ps ← collectPtrs (k :: seen) ks
      .ok (p :: ps)

/-- `allPointers` from `csv_writer.go`: the deduplicated pointers of all
record keys, or the first tokenization error. -/
def allPointers (results : List KeyValue) : Except PointerError (List Pointer) :=
  collectPtrs [] (allKeys results)

/-- The deduplicated key strings themselves (first occurrences kept). -/
def newKeys : List String → List String → List String
  | _, [] => []
  | seen, k :: ks => if k ∈ seen then newKeys seen ks else k :: newKeys (k :: seen) ks

/-! ## Header styles -/

/-- `JSONPointerStyle` (Go `iota` value 0): `/foo/bar/0/baz`. -/
def JSONPointerStyle : Nat := 0

/-- `SlashStyle` (1): `foo/bar/0/baz`. -/
def SlashStyle : Nat := 1

/-- `DotNotationStyle` (2): `foo.bar.0.baz`. -/
def DotNotationStyle : Nat := 2

/-- `DotBracketStyle` (3): `foo.bar[0].baz`. -/
def DotBracketStyle : Nat := 3

/-- Modelled from the spec: `pointers.Strings()`. -/
def pointerStrings (ps : List Pointer) : List String := ps.map ptrString

/-- Modelled from the spec: `pointers.Slashes()`. -/
def pointerSlashes (ps : List Pointer) : List String := ps.map slashRender

/-- Modelled from the spec: `pointers.DotNotations(brackets)`. -/
def pointerDotNotations (brackets : Bool) (ps : List Pointer) : List String :=
  ps.map (if brackets then dotBracketRender else dotRender)

/-- `getHeader` from `csv_writer.go`: select the rendering for the
writer's `HeaderStyle`; any unknown style falls back to pointer syntax. -/
def getHeader (style : Nat) (ps : List Pointer) : List String :=
  if style = JSONPointerStyle then pointerStrings ps
  else if style = SlashStyle then pointerSlashes ps
  else if style = DotNotationStyle then pointerDotNotations false ps
  else if style = DotBracketStyle then pointerDotNotations true ps
  else pointerStrings ps

/-- The per-pointer rendering selected by a style (used to restate
`getHeader` as a single map). -/
def styleRender (style : Nat) (p : Pointer) : String :=
  if style = SlashStyle then slashRender p
  else if style = DotNotationStyle then dotRender p
  else if style = DotBracketStyle then dotBracketRender p
  else ptrString p

/-! ## Row projection and emission -/

/-- Modelled from the spec: the external scalar stringification rule.
Scalar values are abstracted by their stringified cell text, so the rule
is the identity here. -/
def toCellString (v : String) : String := v

/-- `toRecord` from `csv_writer.go`: project a record onto the unified
key order, with the empty string for absent keys. -/
def toRecord (kv : KeyValue) (keys : List String) : List String :=
  keys.map fun key =>
    match findVal kv key with
    | some v => toCellString v
    | none => ""

/-- `toTransposedRecord` from `csv_writer.go`: one output line for one
key — the header label, then that key's value per record. -/
def toTransposedRecord (results : List KeyValue) (key : String) (header : String) :
    List String :=
  header :: results.map fun result =>
    match findVal result key with
    | some v => toCellString v
    | none => ""

/-- `writeCSV` from `csv_writer.go`, with the sink abstracted as the list
of emitted rows plus the reported error: header row first, then one row
per record in input order; nothing is emitted when `allPointers` fails. -/
def writeCSV (style : Nat) (results : List KeyValue) :
    List (List String) × Option PointerError :=
  match allPointers results with
  | .error e => ([], some e)
  | .ok pts =>
    let sorted := sortPtrs pts
    let keys := sorted.map ptrString
    let header := getHeader style sorted
    (header :: results.map (fun result => toRecord result keys), none)

/-- `writeTransposedCSV` from `csv_writer.go`: one line per sorted key,
pairing `keys[i]` with `header[i]`; nothing on a pointer error. -/
def writeTransposedCSV (style : Nat) (results : List KeyValue) :
    List (List String) × Option PointerError :=
  match allPointers results with
  | .error e => ([], some e)
  | .ok pts =>
    let sorted := sortPtrs pts
    let keys := sorted.map ptrString
    let header := getHeader style sorted
    ((keys.zip header).map (fun kh => toTransposedRecord results kh.1 kh.2), none)

/-- `WriteCSV` from `csv_writer.go`: dispatch on the transpose flag. -/
def WriteCSV (style : Nat) (transpose : Bool) (results : List KeyValue) :
    List (List String) × Option PointerError :=
  if transpose then writeTransposedCSV style results else writeCSV style results

/-- The record built from a header specification in `FormatHeader` and
`WriteCSVByHeader`: every declared key mapped to the empty string.
`CSVHeader` is modelled as the list of declared pointer-strings. -/
def hdrRecord (csvHeader : List String) : KeyValue := csvHeader.map (fun h => (h, ""))

/-- The per-record missing-key filling loop of `WriteCSVByHeader`:
insert an empty-string value for every declared key the record lacks. -/
def fillRecord (csvHeader : List String) (result : KeyValue) : KeyValue :=
  csvHeader.foldl
    (fun acc h => if (findVal acc h).isSome then acc else acc ++ [(h, "")]) result

/-- The records as they stand after `WriteCSVByHeader` has filled the
missing declared keys of every record in place. -/
def normalizeRecords (results : List KeyValue) (csvHeader : List String) :
    List KeyValue :=
  results.map (fillRecord csvHeader)

/-- `WriteCSVByHeader` from `csv_writer.go`: rows according to the
declared header only — no header row is written in this code path. -/
def WriteCSVByHeader (results : List KeyValue) (csvHeader : List String) :
    List (List String) × Option PointerError :=
  match allPointers [hdrRecord csvHeader] with
  | .error e => ([], some e)
  | .ok pts =>
    let keys := (sortPtrs pts).map ptrString
    ((normalizeRecords results csvHeader).map (fun result => toRecord result keys), none)

/-- `FormatHeader` from `csv_writer.go`: the header labels for a declared
header specification, in sorted pointer order. -/
def FormatHeader (style : Nat) (csvHeader : List String) :
    Except PointerError (List String) :=
  match allPointers [hdrRecord csvHeader] with
  | .error e => .error e
  | .ok pts => .ok (getHeader style (sortPtrs pts))

/-- `WriterHeader` from `csv_writer.go`: write only the header row. -/
def WriterHeader (style : Nat) (csvHeader : List String) :
    List (List String) × Option PointerError :=
  match FormatHeader style csvHeader with
  | .error e => ([], some e)
  | .ok header => ([header], none)

/-- One cell of an emitted row table (empty string out of range). -/
def cellAt (rows : List (List String)) (i j : Nat) : String :=
  (rows.getD i []).getD j ""

/-! ## Facts about the comparator -/

theorem chCmp_refl (s : List Char) : chCmp s s = .eq := by
  induction s with
  | nil => rfl
  | cons a s ih => simp [chCmp, ih]

theorem chCmp_swap (s t : List Char) : chCmp t s = (chCmp s t).swap := by
  induction s generalizing t with
  | nil => cases t <;> rfl
  | cons a s ih =>
    cases t with
    | nil => rfl
    | cons b t =>
      rcases Nat.lt_trichotomy a.toNat b.toNat with h | h | h
      · simp only [chCmp, h, Nat.lt_asymm h, if_true, if_false]; rfl
      · simp [chCmp, h, Nat.lt_irrefl, ih]
      · simp only [chCmp, h, Nat.lt_asymm h, if_true, if_false]; rfl

theorem chCmp_trans_lt {s t u : List Char} (h1 : chCmp s t = .lt) (h2 : chCmp t u = .lt) :
    chCmp s u = .lt := by
  induction s generalizing t u with
  | nil =>
    cases t with
    | nil => exact absurd h1 (by simp [chCmp])
    | cons b t =>
      cases u with
      | nil => exact absurd h2 (by simp [chCmp])
      | cons c u => simp [chCmp]
  | cons a s ih =>
    cases t with
    | nil => exact absurd h1 (by simp [chCmp])
    | cons b t =>
      cases u with
      | nil => exact absurd h2 (by simp [chCmp])
      | cons c u =>
        simp only [chCmp] at h1 h2 ⊢
        rcases Nat.lt_trichotomy a.toNat b.toNat with hab | hab | hab
        · rcases Nat.lt_trichotomy b.toNat c.toNat with hbc | hbc | hbc
          · simp [Nat.lt_trans hab hbc]
          · simp [hbc ▸ hab]
          · simp [hab, Nat.lt_asymm hab, Nat.not_lt.mpr (Nat.le_of_lt hab)] at h1 ⊢
            simp [hbc, Nat.lt_asymm hbc, Nat.not_lt.mpr (Nat.le_of_lt hbc)] at h2
        · rcases Nat.lt_trichotomy b.toNat c.toNat with hbc | hbc | hbc
          · simp [hab ▸ hbc]
          · have : a.toNat = c.toNat := hab.trans hbc
            simp only [hab, Nat.lt_irrefl, if_false] at h1
            simp only [hbc, Nat.lt_irrefl, if_false] at h2
            simp [this, Nat.lt_irrefl, ih h1 h2]
          · simp [hbc, Nat.lt_asymm hbc, Nat.not_lt.mpr (Nat.le_of_lt hbc)] at h2
        · simp [hab, Nat.lt_asymm hab, Nat.not_lt.mpr (Nat.le_of_lt hab)] at h1

theorem chCmp_eq_iff {s t : List Char} : chCmp s t = .eq ↔
    s.length = t.length ∧ ∀ i, (s.getD i ' ').toNat = (t.getD i ' ').toNat := by
  induction s generalizing t with
  | nil =>
    cases t with
    | nil => simp [chCmp]
    | cons b t => simp [chCmp]
  | cons a s ih =>
    cases t with
    | nil => simp [chCmp]
    | cons b t =>
      simp only [chCmp]
      rcases Nat.lt_trichotomy a.toNat b.toNat with hab | hab | hab
      · simp only [hab, if_true]
        constructor
        · intro h; exact absurd h (by simp)
        · rintro ⟨-, h⟩
          have := h 0
          simp at this
          omega
      · simp only [hab, Nat.lt_irrefl, if_false, ih]
        constructor
        · rintro ⟨hl, h⟩
          refine ⟨by simp [hl], fun i => ?_⟩
          cases i with
          | zero => simpa using hab
          | succ i => simpa using h i
        · rintro ⟨hl, h⟩
          refine ⟨by simpa using hl, fun i => ?_⟩
          simpa using h (i + 1)
  
      · simp only [Nat.lt_asymm hab, if_false, hab, if_true]
        constructor
        · intro h; exact absurd h (by simp)
        · rintro ⟨-, h⟩
          have := h 0
          simp at this
          omega

theorem chCmp_congr_left {s t : List Char} (h : chCmp s t = .eq) (u : List Char) :
    chCmp s u = chCmp t u := by
  induction s generalizing t u with
  | nil =>
    cases t with
    | nil => rfl
    | cons b t => exact absurd h (by simp [chCmp])
  | cons a s ih =>
    cases t with
    | nil => exact absurd h (by simp [chCmp])
    | cons b t =>
      simp only [chCmp] at h
      rcases Nat.lt_trichotomy a.toNat b.toNat with hab | hab | hab
      · simp [hab] at h
      · simp only [hab, Nat.lt_irrefl, if_false] at h
        cases u with
        | nil => rfl
        | cons c u => simp only [chCmp, hab, ih h]
      · simp [hab, Nat.lt_asymm hab, Nat.not_lt.mpr (Nat.le_of_lt hab)] at h

theorem tokenCmp_refl (a : Token) : tokenCmp a a = .eq := by
  cases a with
  | index m r => simp [tokenCmp]
  | name s => simp [tokenCmp, chCmp_refl]

theorem tokenCmp_swap (a b : Token) : tokenCmp b a = (tokenCmp a b).swap := by
  cases a with
  | index m r =>
    cases b with
    | index n r' =>
      rcases Nat.lt_trichotomy m n with h | h | h
      · simp only [tokenCmp, h, Nat.lt_asymm h, if_true, if_false]; rfl
      · subst h; simp only [tokenCmp, Nat.lt_irrefl, if_false]; rfl
      · simp only [tokenCmp, h, Nat.lt_asymm h, if_true, if_false]; rfl
    | name t => rfl
  | name s =>
    cases b with
    | index n r' => rfl
    | name t => simp only [tokenCmp]; exact chCmp_swap s t

theorem tokenCmp_trans_lt {a b c : Token} (h1 : tokenCmp a b = .lt)
    (h2 : tokenCmp b c = .lt) : tokenCmp a c = .lt := by
  cases a with
  | index m r =>
    cases b with
    | index n rb =>
      cases c with
      | index p rc =>
        simp only [tokenCmp] at h1 h2 ⊢
        have hmn : m < n := by
          rcases Nat.lt_trichotomy m n with h | h | h
          · exact h
          · subst h; simp [Nat.lt_irrefl] at h1
          · simp [Nat.lt_asymm h, h] at h1
        have hnp : n < p := by
          rcases Nat.lt_trichotomy n p with h | h | h
          · exact h
          · subst h; simp [Nat.lt_irrefl] at h2
          · simp [Nat.lt_asymm h, h] at h2
        simp [Nat.lt_trans hmn hnp]
      | name t => rfl
    | name t =>
      cases c with
      | index p rc => exact absurd h2 (by simp [tokenCmp])
      | name t' => rfl
  | name s =>
    cases b with
    | index n rb => exact absurd h1 (by simp [tokenCmp])
    | name t =>
      cases c with
      | index p rc => exact absurd h2 (by simp [tokenCmp])
      | name t' =>
        simp only [tokenCmp] at h1 h2 ⊢
        exact chCmp_trans_lt h1 h2

theorem tokenCmp_congr_left {a b : Token} (h : tokenCmp a b = .eq) (c : Token) :
    tokenCmp a c = tokenCmp b c := by
  cases a with
  | index m r =>
    cases b with
    | index n rb =>
      have hmn : m = n := by
        simp only [tokenCmp] at h
        split at h
        · simp at h
        · split at h
          · simp at h
          · omega
      cases c with
      | index p rc => simp [tokenCmp, hmn]
      | name t => rfl
    | name t => exact absurd h (by simp [tokenCmp])
  | name s =>
    cases b with
    | index n rb => exact absurd h (by simp [tokenCmp])
    | name t =>
      simp only [tokenCmp] at h
      cases c with
      | index p rc => rfl
      | name u => simp only [tokenCmp]; exact chCmp_congr_left h u

theorem ptrCmp_refl (p : Pointer) : ptrCmp p p = .eq := by
  induction p with
  | nil => rfl
  | cons a p ih => simp [ptrCmp, tokenCmp_refl, ih]

theorem ptrCmp_swap (p q : Pointer) : ptrCmp q p = (ptrCmp p q).swap := by
  induction p generalizing q with
  | nil => cases q <;> rfl
  | cons a p ih =>
    cases q with
    | nil => rfl
    | cons b q =>
      simp only [ptrCmp, tokenCmp_swap a b]
      cases tokenCmp a b with
      | lt => rfl
      | gt => rfl
      | eq => exact ih q

theorem ptrCmp_congr_left {p q : Pointer} (h : ptrCmp p q = .eq) (r : Pointer) :
    ptrCmp p r = ptrCmp q r := by
  induction p generalizing q r with
  | nil =>
    cases q with
    | nil => rfl
    | cons b q => exact absurd h (by simp [ptrCmp])
  | cons a p ih =>
    cases q with
    | nil => exact absurd h (by simp [ptrCmp])
    | cons b q =>
      simp only [ptrCmp] at h
      have hab : tokenCmp a b = .eq := by
        revert h; cases tokenCmp a b <;> simp [ptrCmp]
      have hpq : ptrCmp p q = .eq := by
        rw [hab] at h; exact h
      cases r with
      | nil => rfl
      | cons c r =>
        simp only [ptrCmp, tokenCmp_congr_left hab c]
        cases tokenCmp b c with
        | lt => rfl
        | gt => rfl
        | eq => exact ih hpq r

theorem ptrCmp_trans_lt {p q r : Pointer} (h1 : ptrCmp p q = .lt)
    (h2 : ptrCmp q r = .lt) : ptrCmp p r = .lt := by
  induction p generalizing q r with
  | nil =>
    cases q with
    | nil => exact absurd h1 (by simp [ptrCmp])
    | cons b q =>
      cases r with
      | nil => exact absurd h2 (by simp [ptrCmp])
      | cons c r => simp [ptrCmp]
  | cons a p ih =>
    cases q with
    | nil => exact absurd h1 (by simp [ptrCmp])
    | cons b q =>
      cases r with
      | nil => exact absurd h2 (by simp [ptrCmp])
      | cons c r =>
        simp only [ptrCmp] at h1 h2 ⊢
        cases hab : tokenCmp a b with
        | gt => rw [hab] at h1; exact absurd h1 (by simp)
        | lt =>
          rw [hab] at h1
          cases hbc : tokenCmp b c with
          | gt => rw [hbc] at h2; exact absurd h2 (by simp)
          | lt => rw [tokenCmp_trans_lt hab hbc]
          | eq =>
            have : tokenCmp a c = tokenCmp a b := by
              have h' : tokenCmp c b = .eq := by rw [tokenCmp_swap b c, hbc]; rfl
              rw [tokenCmp_swap c a, tokenCmp_congr_left h' a, tokenCmp_swap a b,
                Ordering.swap_swap]
            rw [this, hab]
        | eq =>
          rw [hab] at h1
          cases hbc : tokenCmp b c with
          | gt => rw [hbc] at h2; exact absurd h2 (by simp)
          | lt => rw [tokenCmp_congr_left hab c, hbc]
          | eq =>
            rw [hbc] at h2
            rw [tokenCmp_congr_left hab c, hbc]
            exact ih h1 h2

theorem ptrLe_refl (p : Pointer) : ptrLe p p = true := by
  simp [ptrLe, ptrCmp_refl]

theorem ptrLe_total (p q : Pointer) : ptrLe p q = true ∨ ptrLe q p = true := by
  unfold ptrLe
  rw [ptrCmp_swap p q]
  cases ptrCmp p q with
  | lt => left; rfl
  | eq => left; rfl
  | gt => right; rfl

theorem ptrLe_trans {p q r : Pointer} (h1 : ptrLe p q = true) (h2 : ptrLe q r = true) :
    ptrLe p r = true := by
  unfold ptrLe at h1 h2 ⊢
  cases hpq : ptrCmp p q with
  | gt => rw [hpq] at h1; simp at h1
  | lt =>
    cases hqr : ptrCmp q r with
    | gt => rw [hqr] at h2; simp at h2
    | lt => rw [ptrCmp_trans_lt hpq hqr]
    | eq =>
      have h' : ptrCmp r q = .eq := by rw [ptrCmp_swap q r, hqr]; rfl
      have : ptrCmp p r = .lt := by
        rw [ptrCmp_swap r p, ptrCmp_congr_left h' p, ptrCmp_swap p q,
          Ordering.swap_swap, hpq]
      rw [this]
  | eq =>
    rw [ptrCmp_congr_left hpq r]
    exact h2

theorem ptrLe_false_of_lt {p q : Pointer} (h : ptrCmp p q = .lt) : ptrLe q p = false := by
  unfold ptrLe
  rw [ptrCmp_swap p q, h]
  rfl

theorem lt_of_ptrLe_false {p q : Pointer} (h : ptrLe q p = false) : ptrCmp p q = .lt := by
  unfold ptrLe at h
  rw [ptrCmp_swap p q] at h
  cases hq : ptrCmp p q <;> rw [hq] at h <;> simp_all [Ordering.swap]

/-! ## Sorting facts -/

theorem insertPtr_perm (p : Pointer) (l : List Pointer) :
    List.Perm (insertPtr p l) (p :: l) := by
  induction l with
  | nil => exact List.Perm.refl _
  | cons q qs ih =>
    by_cases h : ptrLe p q = true
    · simp [insertPtr, h]
    · simp only [insertPtr, h, if_false, Bool.false_eq_true]
      exact (List.Perm.cons q ih).trans (List.Perm.swap p q qs)

theorem sortPtrs_perm (l : List Pointer) : List.Perm (sortPtrs l) l := by
  induction l with
  | nil => exact List.Perm.refl _
  | cons p ps ih => exact (insertPtr_perm p (sortPtrs ps)).trans (List.Perm.cons p ih)

theorem mem_insertPtr {x p : Pointer} {l : List Pointer} :
    x ∈ insertPtr p l ↔ x = p ∨ x ∈ l := by
  rw [(insertPtr_perm p l).mem_iff]
  simp

theorem sorted_insertPtr {p : Pointer} {l : List Pointer}
    (h : l.Pairwise (fun a b => ptrLe a b = true)) :
    (insertPtr p l).Pairwise (fun a b => ptrLe a b = true) := by
  induction l with
  | nil => simp [insertPtr]
  | cons q qs ih =>
    rcases List.pairwise_cons.mp h with ⟨hq, hqs⟩
    by_cases hpq : ptrLe p q = true
    · simp only [insertPtr, hpq, if_true]
      refine List.pairwise_cons.mpr ⟨?_, h⟩
      intro x hx
      rcases List.mem_cons.mp hx with rfl | hx
      · exact hpq
      · exact ptrLe_trans hpq (hq x hx)
    · simp only [insertPtr, hpq, if_false, Bool.false_eq_true]
      refine List.pairwise_cons.mpr ⟨?_, ih hqs⟩
      intro x hx
      rcases mem_insertPtr.mp hx with rfl | hx
      · rcases ptrLe_total x q with h' | h'
        · exact absurd h' hpq
        · exact h'
      · exact hq x hx

theorem sortPtrs_sorted (l : List Pointer) :
    (sortPtrs l).Pairwise (fun a b => ptrLe a b = true) := by
  induction l with
  | nil => simp [sortPtrs]
  | cons p ps ih => exact sorted_insertPtr ih

/-- In a list sorted by `ptrLe`, an element strictly below another
(`ptrLe q p = false`) sits at a strictly smaller position. -/
theorem sorted_pos_lt {l : List Pointer}
    (hs : l.Pairwise (fun a b => ptrLe a b = true)) {i j : Nat} {p q : Pointer}
    (hi : l.get? i = some p) (hj : l.get? j = some q)
    (hqp : ptrLe q p = false) : i < j := by
  rcases List.get?_eq_some.mp hi with ⟨hi', hip⟩
  rcases List.get?_eq_some.mp hj with ⟨hj', hjq⟩
  rcases Nat.lt_trichotomy i j with h | h | h
  · exact h
  · subst h
    rw [hip] at hjq
    subst hjq
    rw [ptrLe_refl] at hqp
    cases hqp
  · exfalso
    have := List.pairwise_iff_get.mp hs ⟨j, hj'⟩ ⟨i, hi'⟩ h
    rw [hip, hjq] at this
    rw [this] at hqp
    cases hqp

/-! ## Parse/render roundtrip -/

theorem joinSlash_cons_of_ne_nil (s : List Char) {ss : List (List Char)}
    (h : ss ≠ []) : joinSlash (s :: ss) = s ++ '/' :: joinSlash ss := by
  cases ss with
  | nil => exact absurd rfl h
  | cons s2 ss2 => rfl

theorem splitSlash_ne_nil (l : List Char) : splitSlash l ≠ [] := by
  induction l using splitSlash.induct with
  | case1 => simp [splitSlash]
  | case2 rest ih => simp [splitSlash]
  | case3 c rest hc hsplit ih => simp [splitSlash, hc, hsplit]
  | case4 c rest hc s ss hsplit ih => simp [splitSlash, hc, hsplit]

theorem joinSlash_splitSlash (l : List Char) : joinSlash (splitSlash l) = l := by
  induction l using splitSlash.induct with
  | case1 => rfl
  | case2 rest ih =>
    have h1 : splitSlash ('/' :: rest) = [] :: splitSlash rest := by
      simp [splitSlash]
    rw [h1, joinSlash_cons_of_ne_nil [] (splitSlash_ne_nil rest), ih]
    rfl
  | case3 c rest hc hsplit ih => exact absurd hsplit (splitSlash_ne_nil rest)
  | case4 c rest hc s ss hsplit ih =>
    have h1 : splitSlash (c :: rest) = (c :: s) :: ss := by
      simp [splitSlash, hc, hsplit]
    rw [hsplit] at ih
    rw [h1]
    cases ss with
    | nil =>
      show c :: s = c :: rest
      rw [show joinSlash [s] = s from rfl] at ih
      rw [ih]
    | cons s2 ss2 =>
      rw [joinSlash_cons_of_ne_nil (c :: s) (by simp)]
      rw [joinSlash_cons_of_ne_nil s (by simp)] at ih
      rw [List.cons_append, ih]

theorem mem_splitSlash_no_slash {l s : List Char} (h : s ∈ splitSlash l) :
    '/' ∉ s := by
  induction l using splitSlash.induct generalizing s with
  | case1 =>
    simp only [splitSlash, List.mem_singleton] at h
    subst h
    simp
  | case2 rest ih =>
    have h1 : splitSlash ('/' :: rest) = [] :: splitSlash rest := by
      simp [splitSlash]
    rw [h1, List.mem_cons] at h
    rcases h with rfl | h
    · simp
    · exact ih h
  | case3 c rest hc hsplit ih => exact absurd hsplit (splitSlash_ne_nil rest)
  | case4 c rest hc s' ss hsplit ih =>
    have h1 : splitSlash (c :: rest) = (c :: s') :: ss := by
      simp [splitSlash, hc, hsplit]
    rw [h1, List.mem_cons] at h
    rcases h with rfl | h
    · intro hmem
      rcases List.mem_cons.mp hmem with h' | h'
      · exact hc h'.symm
      · exact ih (hsplit ▸ List.mem_cons_self s' ss) h'
    · exact ih (hsplit.symm ▸ List.mem_cons_of_mem _ h)

theorem unescape_escape {seg t : List Char} (h : unescapeSeg seg = some t)
    (hs : '/' ∉ seg) : escapeSeg t = seg := by
  induction seg using unescapeSeg.induct generalizing t with
  | case1 =>
    rw [show unescapeSeg [] = some [] from rfl] at h
    cases h
    rfl
  | case2 =>
    rw [show unescapeSeg ['~'] = none from rfl] at h
    cases h
  | case3 rest ih =>
    rw [show unescapeSeg ('~' :: '0' :: rest) = (unescapeSeg rest).map
      (fun t => '~' :: t) from rfl] at h
    rcases Option.map_eq_some'.mp h with ⟨t2, ht2, rfl⟩
    have hrest : '/' ∉ rest := fun hmem => hs (by simp [hmem])
    rw [show escapeSeg ('~' :: t2) = '~' :: '0' :: escapeSeg t2 from rfl,
      ih ht2 hrest]
  | case4 rest h10 ih =>
    rw [show unescapeSeg ('~' :: '1' :: rest) = (unescapeSeg rest).map
      (fun t => '/' :: t) from rfl] at h
    rcases Option.map_eq_some'.mp h with ⟨t2, ht2, rfl⟩
    have hrest : '/' ∉ rest := fun hmem => hs (by simp [hmem])
    rw [show escapeSeg ('/' :: t2) = '~' :: '1' :: escapeSeg t2 from rfl,
      ih ht2 hrest]
  | case5 c rest hc0 hc1 =>
    have hstep : unescapeSeg ('~' :: c :: rest) =
        (if c = '0' then (unescapeSeg rest).map (fun t => '~' :: t)
         else if c = '1' then (unescapeSeg rest).map (fun t => '/' :: t)
         else none) := rfl
    rw [hstep, if_neg hc0, if_neg hc1] at h
    cases h
  | case6 c rest hc ih =>
    have hstep : unescapeSeg (c :: rest) = (unescapeSeg rest).map
        (fun t => c :: t) := by
      cases rest with
      | nil => rw [unescapeSeg.eq_2, if_neg hc]
      | cons d r2 => rw [unescapeSeg.eq_3, if_neg hc]
    rw [hstep] at h
    rcases Option.map_eq_some'.mp h with ⟨t2, ht2, rfl⟩
    have hcs : c ≠ '/' := fun hceq => hs (by simp [hceq])
    have hrest : '/' ∉ rest := fun hmem => hs (by simp [hmem])
    have : escapeSeg (c :: t2) = c :: escapeSeg t2 := by
      simp [escapeSeg, hc, hcs]
    rw [this, ih ht2 hrest]

theorem Token.raw_classify (t : List Char) : (classify t).raw = t := by
  unfold classify
  split <;> rfl

theorem parseSeg_escape {seg : List Char} {tok : Token} (h : parseSeg seg = .ok tok)
    (hs : '/' ∉ seg) : escapeSeg tok.raw = seg := by
  unfold parseSeg at h
  cases hu : unescapeSeg seg with
  | none => rw [hu] at h; cases h
  | some t =>
    rw [hu] at h
    cases h
    rw [Token.raw_classify]
    exact unescape_escape hu hs

theorem parseSegs_escape {ss : List (List Char)} {ts : List Token}
    (h : parseSegs ss = .ok ts) (hs : ∀ s ∈ ss, '/' ∉ s) :
    ts.map (fun t => escapeSeg t.raw) = ss := by
  induction ss generalizing ts with
  | nil =>
    cases h
    rfl
  | cons s ss ih =>
    simp only [parseSegs, bind, Except.bind] at h
    cases hseg : parseSeg s with
    | error e => rw [hseg] at h; cases h
    | ok t =>
      rw [hseg] at h
      cases hrest : parseSegs ss with
      | error e => rw [hrest] at h; cases h
      | ok ts' =>
        rw [hrest] at h
        cases h
        simp only [List.map_cons]
        rw [parseSeg_escape hseg (hs s (List.mem_cons_self s ss)),
          ih hrest (fun x hx => hs x (List.mem_cons_of_mem s hx))]

/-- Rendering a successfully parsed pointer gives back the original string. -/
theorem render_parseChars {l : List Char} {p : Pointer} (h : parseChars l = .ok p) :
    renderChars p = l := by
  cases l with
  | nil =>
    cases h
    rfl
  | cons c rest =>
    simp only [parseChars] at h
    by_cases hc : c = '/'
    · rw [if_pos hc] at h
      subst hc
      have hmap := parseSegs_escape h (fun s hs => mem_splitSlash_no_slash hs)
      have hpne : p ≠ [] := by
        intro hp
        subst hp
        simp only [List.map_nil] at hmap
        exact splitSlash_ne_nil rest hmap.symm
      cases p with
      | nil => exact absurd rfl hpne
      | cons t ts =>
        show '/' :: joinSlash ((t :: ts).map (fun t => escapeSeg t.raw)) = '/' :: rest
        rw [hmap, joinSlash_splitSlash]
    · rw [if_neg hc] at h
      cases h

theorem ptrString_parsePointer {s : String} {p : Pointer}
    (h : parsePointer s = .ok p) : ptrString p = s := by
  unfold parsePointer at h
  unfold ptrString
  rw [render_parseChars h]

/-! ## Facts about the pointer set -/

theorem collectPtrs_strings {seen ks : List String} {ps : List Pointer}
    (h : collectPtrs seen ks = .ok ps) : ps.map ptrString = newKeys seen ks := by
  induction ks generalizing seen ps with
  | nil =>
    cases h
    rfl
  | cons k ks ih =>
    simp only [collectPtrs, newKeys] at h ⊢
    by_cases hk : k ∈ seen
    · rw [if_pos hk] at h ⊢
      exact ih h
    · rw [if_neg hk] at h ⊢
      simp only [bind, Except.bind] at h
      cases hp : parsePointer k with
      | error e => rw [hp] at h; cases h
      | ok p =>
        rw [hp] at h
        cases hrest : collectPtrs (k :: seen) ks with
        | error e => rw [hrest] at h; cases h
        | ok ps' =>
          rw [hrest] at h
          cases h
          simp only [List.map_cons]
          rw [ptrString_parsePointer hp, ih hrest]

theorem mem_newKeys {seen ks : List String} {k : String} :
    k ∈ newKeys seen ks ↔ k ∈ ks ∧ k ∉ seen := by
  induction ks generalizing seen with
  | nil => simp [newKeys]
  | cons k' ks ih =>
    simp only [newKeys]
    by_cases hk : k' ∈ seen
    · rw [if_pos hk, ih]
      simp only [List.mem_cons]
      constructor
      · rintro ⟨h1, h2⟩
        exact ⟨Or.inr h1, h2⟩
      · rintro ⟨h1 | h1, h2⟩
        · subst h1; exact absurd hk h2
        · exact ⟨h1, h2⟩
    · rw [if_neg hk]
      simp only [List.mem_cons, ih, List.mem_cons]
      by_cases hkk : k = k'
      · subst hkk; tauto
      · tauto

theorem newKeys_nodup (seen ks : List String) : (newKeys seen ks).Nodup := by
  induction ks generalizing seen with
  | nil => simp [newKeys]
  | cons k ks ih =>
    simp only [newKeys]
    by_cases hk : k ∈ seen
    · rw [if_pos hk]; exact ih seen
    · rw [if_neg hk]
      refine List.nodup_cons.mpr ⟨?_, ih (k :: seen)⟩
      intro hmem
      exact (mem_newKeys.mp hmem).2 (List.mem_cons_self k seen)

theorem collectPtrs_ok_parses {seen ks : List String} {ps : List Pointer}
    (h : collectPtrs seen ks = .ok ps) :
    ∀ k ∈ ks, k ∈ seen ∨ ∃ p, parsePointer k = .ok p := by
  induction ks generalizing seen ps with
  | nil => intro k hk; cases hk
  | cons k' ks ih =>
    intro k hk
    simp only [collectPtrs] at h
    by_cases hk' : k' ∈ seen
    · rw [if_pos hk'] at h
      rcases List.mem_cons.mp hk with rfl | hk2
      · exact Or.inl hk'
      · exact ih h k hk2
    · rw [if_neg hk'] at h
      simp only [bind, Except.bind] at h
      cases hp : parsePointer k' with
      | error e => rw [hp] at h; cases h
      | ok p =>
        rw [hp] at h
        cases hrest : collectPtrs (k' :: seen) ks with
        | error e => rw [hrest] at h; cases h
        | ok ps' =>
          rcases List.mem_cons.mp hk with rfl | hk2
          · exact Or.inr ⟨p, hp⟩
          · rcases ih hrest k hk2 with hmem | hx
            · rcases List.mem_cons.mp hmem with rfl | hmem2
              · exact Or.inr ⟨p, hp⟩
              · exact Or.inl hmem2
            · exact Or.inr hx

theorem collectPtrs_mem_parses {seen ks : List String} {ps : List Pointer}
    (h : collectPtrs seen ks = .ok ps) :
    ∀ p ∈ ps, parsePointer (ptrString p) = .ok p := by
  induction ks generalizing seen ps with
  | nil =>
    cases h
    intro p hp
    cases hp
  | cons k ks ih =>
    simp only [collectPtrs] at h
    by_cases hk : k ∈ seen
    · rw [if_pos hk] at h
      exact ih h
    · rw [if_neg hk] at h
      simp only [bind, Except.bind] at h
      cases hp : parsePointer k with
      | error e => rw [hp] at h; cases h
      | ok p =>
        rw [hp] at h
        cases hrest : collectPtrs (k :: seen) ks with
        | error e => rw [hrest] at h; cases h
        | ok ps' =>
          rw [hrest] at h
          cases h
          intro q hq
          rcases List.mem_cons.mp hq with rfl | hq2
          · rw [ptrString_parsePointer hp]
            exact hp
          · exact ih hrest q hq2

theorem mem_allKeys {results : List KeyValue} {k : String} :
    k ∈ allKeys results ↔ ∃ r ∈ results, k ∈ keysOf r := by
  induction results with
  | nil => simp [allKeys]
  | cons r rs ih =>
    simp only [allKeys, List.mem_append, ih]
    constructor
    · rintro (h | ⟨r', hr', hk⟩)
      · exact ⟨r, List.mem_cons_self r rs, h⟩
      · exact ⟨r', List.mem_cons_of_mem r hr', hk⟩
    · rintro ⟨r', hr', hk⟩
      rcases List.mem_cons.mp hr' with rfl | hr2
      · exact Or.inl hk
      · exact Or.inr ⟨r', hr2, hk⟩

/-! ## Facts about record lookup and missing-key filling -/

theorem findVal_append (a b : KeyValue) (k : String) :
    findVal (a ++ b) k =
      match findVal a k with
      | some v => some v
      | none => findVal b k := by
  induction a with
  | nil => rfl
  | cons kv rest ih =>
    rcases kv with ⟨k', v⟩
    by_cases hk : k' = k
    · simp [findVal, hk]
    · simp only [List.cons_append, findVal, hk, if_false]
      exact ih

/-- The net effect of the missing-key filling loop on a single lookup. -/
theorem fill_find (hdr : List String) (r : KeyValue) (k : String) :
    findVal (fillRecord hdr r) k =
      if (findVal r k).isSome then findVal r k
      else if k ∈ hdr then some "" else none := by
  induction hdr generalizing r with
  | nil =>
    simp only [fillRecord, List.foldl_nil, List.not_mem_nil, if_false]
    cases findVal r k <;> simp
  | cons h hdr ih =>
    have hstep : fillRecord (h :: hdr) r =
        fillRecord hdr (if (findVal r h).isSome then r else r ++ [(h, "")]) := by
      simp [fillRecord, List.foldl_cons]
    rw [hstep]
    by_cases hfh : (findVal r h).isSome
    · rw [if_pos hfh, ih]
      cases hfk : findVal r k with
      | some v => simp
      | none =>
        have hne : k ≠ h := by
          intro he
          rw [← he, hfk] at hfh
          simp at hfh
        simp [List.mem_cons, hne]
    · rw [if_neg hfh, ih]
      have hfind : findVal (r ++ [(h, "")]) k =
          match findVal r k with
          | some v => some v
          | none => if h = k then some "" else none := by
        rw [findVal_append]
        rfl
      cases hfk : findVal r k with
      | some v =>
        rw [hfk] at hfind
        simp [hfind]
      | none =>
        rw [hfk] at hfind
        by_cases hkh : k = h
        · subst hkh
          simp only [if_pos rfl] at hfind
          simp [hfind, List.mem_cons]
        · have : ¬ (h = k) := fun he => hkh he.symm
          rw [if_neg this] at hfind
          simp [hfind, List.mem_cons, hkh]

theorem fill_keeps {hdr : List String} {r : KeyValue} {k : String} {v : String}
    (h : findVal r k = some v) : findVal (fillRecord hdr r) k = some v := by
  rw [fill_find, h]
  simp

theorem fill_missing_declared {hdr : List String} {r : KeyValue} {k : String}
    (h : findVal r k = none) (hk : k ∈ hdr) :
    findVal (fillRecord hdr r) k = some "" := by
  rw [fill_find, h]
  simp [hk]

theorem fill_missing_undeclared {hdr : List String} {r : KeyValue} {k : String}
    (h : findVal r k = none) (hk : k ∉ hdr) :
    findVal (fillRecord hdr r) k = none := by
  rw [fill_find, h]
  simp [hk]

/-! ## The header as a single map -/

theorem getHeader_eq_map (style : Nat) (ps : List Pointer) :
    getHeader style ps = ps.map (styleRender style) := by
  unfold getHeader styleRender pointerStrings pointerSlashes pointerDotNotations
    JSONPointerStyle SlashStyle DotNotationStyle DotBracketStyle
  by_cases h0 : style = 0
  · simp [h0]
  · by_cases h1 : style = 1
    · simp [h1]
    · by_cases h2 : style = 2
      · simp [h2]
      · by_cases h3 : style = 3
        · simp [h3]
        · simp [h0, h1, h2, h3]

/-! ## Small access helpers -/

theorem getD_map_of_lt {α β : Type} (f : α → β) (l : List α) (i : Nat) (d : β)
    (h : i < l.length) : (l.map f).getD i d = f (l.get ⟨i, h⟩) := by
  rw [List.getD_eq_get?, List.get?_map, List.get?_eq_get h]
  rfl

theorem getD_of_le {α : Type} (l : List α) {i : Nat} (d : α) (h : l.length ≤ i) :
    l.getD i d = d := by
  rw [List.getD_eq_get?, List.get?_eq_none.mpr h]
  rfl

/-! ## Claim theorems -/

/-- Claim C3: for every record and every key sequence, the row produced by
`toRecord` has length exactly the number of keys, and a position whose key
the record lacks holds the empty string. -/
theorem toRecord_projection_complete (kv : KeyValue) (keys : List String) :
    (toRecord kv keys).length = keys.length ∧
    ∀ i k, keys.get? i = some k → findVal kv k = none →
      (toRecord kv keys).get? i = some "" := by
  constructor
  · simp [toRecord]
  · intro i k hk hfind
    unfold toRecord
    rw [List.get?_map, hk]
    simp only [Option.map_some']
    rw [hfind]

/-- Witness for C3 at a concrete record and key sequence. -/
theorem toRecord_projection_complete_w :
    (toRecord [("/a", "1")] ["/a", "/b"]).length = 2 ∧
    (toRecord [("/a", "1")] ["/a", "/b"]).get? 1 = some "" :=
  ⟨(toRecord_projection_complete [("/a", "1")] ["/a", "/b"]).1,
    (toRecord_projection_complete [("/a", "1")] ["/a", "/b"]).2 1 "/b" rfl rfl⟩

/-- Claim C8: the pointer `/foo/bar/0/baz` renders as `foo.bar[0].baz` in
dot-bracket style, `foo.bar.0.baz` in dot style, `foo/bar/0/baz` in slash
style and `/foo/bar/0/baz` in JSON-pointer style. -/
theorem getHeader_styles_foo_bar_0_baz :
    ∃ p : Pointer, parsePointer "/foo/bar/0/baz" = .ok p ∧
      getHeader DotBracketStyle [p] = ["foo.bar[0].baz"] ∧
      getHeader DotNotationStyle [p] = ["foo.bar.0.baz"] ∧
      getHeader SlashStyle [p] = ["foo/bar/0/baz"] ∧
      getHeader JSONPointerStyle [p] = ["/foo/bar/0/baz"] := by
  refine ⟨[.name ['f', 'o', 'o'], .name ['b', 'a', 'r'], .index 0 ['0'],
    .name ['b', 'a', 'z']], ?_, ?_, ?_, ?_, ?_⟩ <;> rfl

/-- Claim C10: any `KeyStyle` value other than the four defined constants
makes `getHeader` fall back to the JSON-pointer rendering. -/
theorem getHeader_default_fallback (style : Nat) (ps : List Pointer)
    (h : style ≠ JSONPointerStyle ∧ style ≠ SlashStyle ∧
      style ≠ DotNotationStyle ∧ style ≠ DotBracketStyle) :
    getHeader style ps = getHeader JSONPointerStyle ps := by
  obtain ⟨h0, h1, h2, h3⟩ := h
  unfold getHeader
  rw [if_neg h0, if_neg h1, if_neg h2, if_neg h3, if_pos rfl]

/-- Witness for C10 at the undefined style value 7. -/
theorem getHeader_default_fallback_w :
    getHeader 7 [[Token.name ['x']]] = getHeader JSONPointerStyle [[Token.name ['x']]] :=
  getHeader_default_fallback 7 [[Token.name ['x']]] (by decide)

/-- Claim C6: with header specification `{"/x","/y"}` and JSON-pointer
style, `WriterHeader` writes exactly one row holding exactly `/x` and `/y`
in sorted pointer order; `WriterHeader` takes no records at all, so the
result depends only on the specification (in either enumeration order)
and the style. -/
theorem writerHeader_xy :
    WriterHeader JSONPointerStyle ["/x", "/y"] = ([["/x", "/y"]], none) ∧
    WriterHeader JSONPointerStyle ["/y", "/x"] = ([["/x", "/y"]], none) := by
  constructor <;> rfl

/-- Claim C9: after `WriteCSVByHeader`, a record of the batch has been
changed only by inserting empty-string values for declared header keys it
lacked — every pre-existing key still maps to its original value, and no
key outside the declared header has been added. -/
theorem writeCSVByHeader_fill_frame (results : List KeyValue) (hdr : List String)
    (i : Nat) (r : KeyValue) (h : results.get? i = some r) :
    (normalizeRecords results hdr).get? i = some (fillRecord hdr r) ∧
    ∀ k : String,
      (∀ v, findVal r k = some v → findVal (fillRecord hdr r) k = some v) ∧
      (findVal r k = none → k ∈ hdr → findVal (fillRecord hdr r) k = some "") ∧
      (findVal r k = none → k ∉ hdr → findVal (fillRecord hdr r) k = none) := by
  refine ⟨?_, fun k => ⟨fun v hv => fill_keeps hv,
    fun h1 h2 => fill_missing_declared h1 h2,
    fun h1 h2 => fill_missing_undeclared h1 h2⟩⟩
  unfold normalizeRecords
  rw [List.get?_map, h]
  rfl

/-- Witness for C9 at a concrete batch and header specification. -/
theorem writeCSVByHeader_fill_frame_w :
    (normalizeRecords [[("/a", "1")]] ["/a", "/b"]).get? 0
      = some (fillRecord ["/a", "/b"] [("/a", "1")]) ∧
    findVal (fillRecord ["/a", "/b"] [("/a", "1")]) "/a" = some "1" ∧
    findVal (fillRecord ["/a", "/b"] [("/a", "1")]) "/b" = some "" ∧
    findVal (fillRecord ["/a", "/b"] [("/a", "1")]) "/c" = none := by
  obtain ⟨h1, h2⟩ :=
    writeCSVByHeader_fill_frame [[("/a", "1")]] ["/a", "/b"] 0 [("/a", "1")] rfl
  exact ⟨h1, (h2 "/a").1 "1" rfl, (h2 "/b").2.1 rfl (by decide),
    (h2 "/c").2.2 rfl (by decide)⟩

/-- Claim C7: if any record key of the batch fails to tokenize as a JSON
pointer, `WriteCSV` (in either orientation) reports the invalid-pointer
error and delivers no row at all to the sink. -/
theorem writeCSV_invalid_pointer_aborts (style : Nat) (transpose : Bool)
    (results : List KeyValue)
    (h : ∃ r ∈ results, ∃ k ∈ keysOf r, ∃ e, parsePointer k = .error e) :
    ∃ s, WriteCSV style transpose results = ([], some (.invalidPointer s)) := by
  rcases h with ⟨r, hr, k, hk, e, he⟩
  have hmem : k ∈ allKeys results := mem_allKeys.mpr ⟨r, hr, hk⟩
  have herr : ∃ e', allPointers results = .error e' := by
    cases hap : allPointers results with
    | error e' => exact ⟨e', rfl⟩
    | ok ps =>
      rcases collectPtrs_ok_parses hap k hmem with hseen | ⟨p, hp⟩
      · cases hseen
      · rw [hp] at he
        cases he
  rcases herr with ⟨e', he'⟩
  rcases e' with ⟨s⟩
  refine ⟨s, ?_⟩
  cases transpose with
  | false =>
    show writeCSV style results = ([], some (.invalidPointer s))
    unfold writeCSV
    rw [he']
  | true =>
    show writeTransposedCSV style results = ([], some (.invalidPointer s))
    unfold writeTransposedCSV
    rw [he']

/-- Witness for C7 at a concrete batch holding the untokenizable key
`abc`. -/
theorem writeCSV_invalid_pointer_aborts_w :
    ∃ s, WriteCSV 0 false [[("abc", "1")]] = ([], some (.invalidPointer s)) :=
  writeCSV_invalid_pointer_aborts 0 false [[("abc", "1")]]
    ⟨[("abc", "1")], by decide, "abc", by decide, .invalidPointer "abc", rfl⟩

/-! ## The sorted key set of a batch -/

theorem sortedKeys_perm_newKeys {results : List KeyValue} {pts : List Pointer}
    (h : allPointers results = .ok pts) :
    List.Perm (sortedKeys pts) (newKeys [] (allKeys results)) := by
  have hperm : List.Perm (sortPtrs pts) pts := sortPtrs_perm pts
  have hmap := hperm.map ptrString
  rw [collectPtrs_strings h] at hmap
  exact hmap

theorem sortedKeys_mem {results : List KeyValue} {pts : List Pointer}
    (h : allPointers results = .ok pts) {k : String} :
    k ∈ sortedKeys pts ↔ k ∈ allKeys results := by
  rw [(sortedKeys_perm_newKeys h).mem_iff, mem_newKeys]
  simp

theorem sortedKeys_nodup {results : List KeyValue} {pts : List Pointer}
    (h : allPointers results = .ok pts) : (sortedKeys pts).Nodup :=
  (sortedKeys_perm_newKeys h).nodup_iff.mpr (newKeys_nodup [] (allKeys results))

/-- Claim C2: every pointer-string appearing as a key in some record of
the batch appears exactly once — no duplicates, no omissions — in the
sorted pointer set computed by `allPointers`, and under the JSON-pointer
style the header row emitted by `writeCSV` is exactly that key list. -/
theorem allPointers_union_complete (results : List KeyValue) (pts : List Pointer)
    (h : allPointers results = .ok pts) (k : String) :
    ((∃ r ∈ results, k ∈ keysOf r) → (sortedKeys pts).count k = 1) ∧
    ((∀ r ∈ results, k ∉ keysOf r) → (sortedKeys pts).count k = 0) ∧
    writeCSV JSONPointerStyle results =
      (sortedKeys pts :: results.map (fun r => toRecord r (sortedKeys pts)), none) := by
  refine ⟨?_, ?_, ?_⟩
  · intro hex
    exact List.count_eq_one_of_mem (sortedKeys_nodup h)
      ((sortedKeys_mem h).mpr (mem_allKeys.mpr hex))
  · intro hall
    refine List.count_eq_zero.mpr ?_
    intro hmem
    rcases mem_allKeys.mp ((sortedKeys_mem h).mp hmem) with ⟨r, hr, hk⟩
    exact hall r hr hk
  · unfold writeCSV
    rw [h]
    rfl

/-- Witness for C2 at a concrete two-key batch. -/
theorem allPointers_union_complete_w :
    (sortedKeys [[Token.name ['b']], [Token.name ['a']]]).count "/a" = 1 ∧
    (sortedKeys [[Token.name ['b']], [Token.name ['a']]]).count "/c" = 0 := by
  have h1 := allPointers_union_complete [[("/b", "2"), ("/a", "1")]]
    [[Token.name ['b']], [Token.name ['a']]] rfl "/a"
  have h2 := allPointers_union_complete [[("/b", "2"), ("/a", "1")]]
    [[Token.name ['b']], [Token.name ['a']]] rfl "/c"
  exact ⟨h1.1 ⟨[("/b", "2"), ("/a", "1")], by decide, by decide⟩,
    h2.2.1 (by decide)⟩

theorem sortedKeys_get_parse {results : List KeyValue} {pts : List Pointer}
    (h : allPointers results = .ok pts) {i : Nat} {k : String}
    (hik : (sortedKeys pts).get? i = some k) :
    ∃ q, (sortPtrs pts).get? i = some q ∧ parsePointer k = .ok q := by
  have h' : collectPtrs [] (allKeys results) = .ok pts := h
  unfold sortedKeys at hik
  rw [List.get?_map] at hik
  cases hq : (sortPtrs pts).get? i with
  | none => rw [hq] at hik; cases hik
  | some q =>
    rw [hq] at hik
    simp only [Option.map_some', Option.some.injEq] at hik
    have hqmem : q ∈ sortPtrs pts := List.get?_mem hq
    have hqpts : q ∈ pts := (sortPtrs_perm pts).mem_iff.mp hqmem
    have hparse := collectPtrs_mem_parses h' q hqpts
    rw [hik] at hparse
    exact ⟨q, rfl, hparse⟩

/-- In the sorted key list of a batch, a key whose pointer is strictly
below another key's pointer has a strictly smaller index. -/
theorem sortedKeys_indexOf_lt {results : List KeyValue} {pts : List Pointer}
    (h : allPointers results = .ok pts) {k1 k2 : String} (p1 p2 : Pointer)
    (hp1 : parsePointer k1 = .ok p1) (hp2 : parsePointer k2 = .ok p2)
    (hlt : ptrLe p2 p1 = false)
    (h1 : k1 ∈ allKeys results) (h2 : k2 ∈ allKeys results) :
    (sortedKeys pts).indexOf k1 < (sortedKeys pts).indexOf k2 := by
  have hm1 : k1 ∈ sortedKeys pts := (sortedKeys_mem h).mpr h1
  have hm2 : k2 ∈ sortedKeys pts := (sortedKeys_mem h).mpr h2
  have hi1 : (sortedKeys pts).indexOf k1 < (sortedKeys pts).length :=
    List.indexOf_lt_length.mpr hm1
  have hi2 : (sortedKeys pts).indexOf k2 < (sortedKeys pts).length :=
    List.indexOf_lt_length.mpr hm2
  have hg1 : (sortedKeys pts).get? ((sortedKeys pts).indexOf k1) = some k1 := by
    rw [List.get?_eq_get hi1, List.indexOf_get hi1]
  have hg2 : (sortedKeys pts).get? ((sortedKeys pts).indexOf k2) = some k2 := by
    rw [List.get?_eq_get hi2, List.indexOf_get hi2]
  obtain ⟨q1, hq1, hq1p⟩ := sortedKeys_get_parse h hg1
  obtain ⟨q2, hq2, hq2p⟩ := sortedKeys_get_parse h hg2
  rw [hp1] at hq1p
  rw [hp2] at hq2p
  obtain rfl : p1 = q1 := Except.ok.inj hq1p
  obtain rfl : p2 = q2 := Except.ok.inj hq2p
  exact sorted_pos_lt (sortPtrs_sorted pts) hq1 hq2 hlt

/-- Claim C1: in the sorted pointer set of any batch containing both
`/a/2` and `/a/10`, the key `/a/2` is ordered before `/a/10` (indices
compare numerically); and in any batch containing both `/a` and `/a/b`,
the key `/a` is ordered before `/a/b` (a strict prefix sorts first). -/
theorem sorted_pointer_order (results : List KeyValue) (pts : List Pointer)
    (h : allPointers results = .ok pts) :
    ("/a/2" ∈ allKeys results → "/a/10" ∈ allKeys results →
      (sortedKeys pts).indexOf "/a/2" < (sortedKeys pts).indexOf "/a/10") ∧
    ("/a" ∈ allKeys results → "/a/b" ∈ allKeys results →
      (sortedKeys pts).indexOf "/a" < (sortedKeys pts).indexOf "/a/b") := by
  constructor
  · intro h1 h2
    exact sortedKeys_indexOf_lt h [.name ['a'], .index 2 ['2']]
      [.name ['a'], .index 10 ['1', '0']] rfl rfl (by decide) h1 h2
  · intro h1 h2
    exact sortedKeys_indexOf_lt h [.name ['a']]
      [.name ['a'], .name ['b']] rfl rfl (by decide) h1 h2

/-- Witness for C1 at a concrete batch holding all four keys. -/
theorem sorted_pointer_order_w :
    (sortedKeys [[Token.name ['a'], Token.index 2 ['2']],
        [Token.name ['a'], Token.index 10 ['1', '0']], [Token.name ['a']],
        [Token.name ['a'], Token.name ['b']]]).indexOf "/a/2"
      < (sortedKeys [[Token.name ['a'], Token.index 2 ['2']],
        [Token.name ['a'], Token.index 10 ['1', '0']], [Token.name ['a']],
        [Token.name ['a'], Token.name ['b']]]).indexOf "/a/10" ∧
    (sortedKeys [[Token.name ['a'], Token.index 2 ['2']],
        [Token.name ['a'], Token.index 10 ['1', '0']], [Token.name ['a']],
        [Token.name ['a'], Token.name ['b']]]).indexOf "/a"
      < (sortedKeys [[Token.name ['a'], Token.index 2 ['2']],
        [Token.name ['a'], Token.index 10 ['1', '0']], [Token.name ['a']],
        [Token.name ['a'], Token.name ['b']]]).indexOf "/a/b" := by
  have hc := sorted_pointer_order
    [[("/a/2", "1"), ("/a/10", "2"), ("/a", "3"), ("/a/b", "4")]]
    [[Token.name ['a'], Token.index 2 ['2']],
      [Token.name ['a'], Token.index 10 ['1', '0']], [Token.name ['a']],
      [Token.name ['a'], Token.name ['b']]] rfl
  exact ⟨hc.1 (by decide) (by decide), hc.2 (by decide) (by decide)⟩

theorem keysOf_hdrRecord (hdr : List String) : keysOf (hdrRecord hdr) = hdr := by
  unfold keysOf hdrRecord
  rw [List.map_map]
  exact List.map_id hdr

theorem allKeys_single (r : KeyValue) : allKeys [r] = keysOf r := by
  simp [allKeys]

/-- Claim C5: `WriteCSVByHeader` emits one row per record whose columns
are exactly the declared header keys in sorted pointer order: a declared
key missing from a record yields the empty string (even when no record
holds it), and a record key outside the declared header contributes
nothing — every cell reads only a declared key. -/
theorem writeCSVByHeader_columns (results : List KeyValue) (hdr : List String)
    (pts : List Pointer) (rows : List (List String))
    (h0 : allPointers [hdrRecord hdr] = .ok pts)
    (h : WriteCSVByHeader results hdr = (rows, none)) :
    (∀ k, k ∈ sortedKeys pts ↔ k ∈ hdr) ∧
    (sortedKeys pts).Nodup ∧
    rows.length = results.length ∧
    (∀ i r, results.get? i = some r →
      rows.get? i = some (toRecord (fillRecord hdr r) (sortedKeys pts)) ∧
      (toRecord (fillRecord hdr r) (sortedKeys pts)).length
        = (sortedKeys pts).length ∧
      ∀ j k, (sortedKeys pts).get? j = some k →
        (toRecord (fillRecord hdr r) (sortedKeys pts)).get? j =
          some ((findVal r k).getD "")) := by
  have hmem : ∀ k, k ∈ sortedKeys pts ↔ k ∈ hdr := by
    intro k
    rw [sortedKeys_mem h0, allKeys_single, keysOf_hdrRecord]
  have hrows : rows = (normalizeRecords results hdr).map
      (fun r => toRecord r (sortedKeys pts)) := by
    unfold WriteCSVByHeader at h
    rw [h0] at h
    exact ((Prod.ext_iff.mp h).1).symm
  refine ⟨hmem, sortedKeys_nodup h0, ?_, ?_⟩
  · rw [hrows]
    simp [normalizeRecords]
  · intro i r hr
    have hgr : rows.get? i = some (toRecord (fillRecord hdr r) (sortedKeys pts)) := by
      rw [hrows]
      unfold normalizeRecords
      rw [List.get?_map, List.get?_map, hr]
      rfl
    refine ⟨hgr, by simp [toRecord], ?_⟩
    intro j k hjk
    have hkhdr : k ∈ hdr := (hmem k).mp (List.get?_mem hjk)
    unfold toRecord
    rw [List.get?_map, hjk]
    simp only [Option.map_some', Option.some.injEq]
    cases hfk : findVal r k with
    | some v =>
      rw [fill_keeps hfk]
      rfl
    | none =>
      rw [fill_missing_declared hfk hkhdr]
      rfl

/-- Witness for C5 at a concrete batch with a missing declared key `/b`
and an undeclared record key `/c`. -/
theorem writeCSVByHeader_columns_w :
    ("/b" ∈ sortedKeys [[Token.name ['a']], [Token.name ['b']]] ↔
      "/b" ∈ ["/a", "/b"]) ∧
    [["1", ""]].length = [[("/a", "1"), ("/c", "3")]].length ∧
    (toRecord (fillRecord ["/a", "/b"] [("/a", "1"), ("/c", "3")])
        (sortedKeys [[Token.name ['a']], [Token.name ['b']]])).get? 1 =
      some ((findVal [("/a", "1"), ("/c", "3")] "/b").getD "") := by
  obtain ⟨hmem, hnd, hlen, hrec⟩ := writeCSVByHeader_columns
    [[("/a", "1"), ("/c", "3")]] ["/a", "/b"]
    [[Token.name ['a']], [Token.name ['b']]] [["1", ""]] rfl rfl
  exact ⟨hmem "/b", hlen, (hrec 0 [("/a", "1"), ("/c", "3")] rfl).2.2 1 "/b" rfl⟩

/-- Claim C4: for a fixed batch, the row-major output of `writeCSV` and
the output of `writeTransposedCSV` hold exactly the same cells with the
roles of rows and columns exchanged: the header row equals the first
column of the transposed output, and data cell `(i, j)` of the row-major
table equals cell `(j, i)` of the transposed table, with matching shapes
(out-of-range positions read the empty string on both sides). -/
theorem transpose_symmetry (style : Nat) (results : List KeyValue)
    (rows trows : List (List String))
    (h1 : writeCSV style results = (rows, none))
    (h2 : writeTransposedCSV style results = (trows, none)) :
    rows.length = results.length + 1 ∧
    trows.length = (rows.getD 0 []).length ∧
    (∀ j, j < trows.length → (trows.getD j []).length = results.length + 1) ∧
    (∀ j, cellAt rows 0 j = cellAt trows j 0) ∧
    (∀ i j, cellAt rows (i + 1) j = cellAt trows j (i + 1)) := by
  cases hap : allPointers results with
  | error e =>
    unfold writeCSV at h1
    rw [hap] at h1
    exact absurd (Prod.ext_iff.mp h1).2 (by simp)
  | ok pts =>
    unfold writeCSV at h1
    unfold writeTransposedCSV at h2
    rw [hap] at h1 h2
    have hrows : rows = getHeader style (sortPtrs pts) ::
        results.map (fun r => toRecord r ((sortPtrs pts).map ptrString)) :=
      (Prod.ext_iff.mp h1).1.symm
    have htr0 : trows = (((sortPtrs pts).map ptrString).zip
        (getHeader style (sortPtrs pts))).map
        (fun kh => toTransposedRecord results kh.1 kh.2) :=
      (Prod.ext_iff.mp h2).1.symm
    have htr : trows = (sortPtrs pts).map
        (fun p => toTransposedRecord results (ptrString p) (styleRender style p)) := by
      rw [htr0, getHeader_eq_map, List.zip_map', List.map_map]
      rfl
    refine ⟨?_, ?_, ?_, ?_, ?_⟩
    · rw [hrows]
      simp
    · rw [htr, hrows]
      simp [getHeader_eq_map]
    · intro j hj
      rw [htr] at hj ⊢
      rw [List.length_map] at hj
      rw [getD_map_of_lt _ _ _ _ hj]
      simp [toTransposedRecord]
    · intro j
      unfold cellAt
      rw [hrows, htr, List.getD_cons_zero, getHeader_eq_map]
      by_cases hj : j < (sortPtrs pts).length
      · rw [getD_map_of_lt _ _ _ _ hj, getD_map_of_lt _ _ _ _ hj]
        rfl
      · have e1 : ((sortPtrs pts).map (styleRender style)).getD j "" = "" :=
          getD_of_le _ _ (by rw [List.length_map]; omega)
        have e2 : ((sortPtrs pts).map (fun p => toTransposedRecord results
            (ptrString p) (styleRender style p))).getD j [] = [] :=
          getD_of_le _ _ (by rw [List.length_map]; omega)
        rw [e1, e2]
        rfl
    · intro i j
      unfold cellAt
      rw [hrows, htr, List.getD_cons_succ]
      by_cases hi : i < results.length
      · rw [getD_map_of_lt _ _ _ _ hi]
        by_cases hj : j < (sortPtrs pts).length
        · rw [getD_map_of_lt _ _ _ _ hj]
          unfold toRecord toTransposedRecord
          rw [List.map_map, getD_map_of_lt _ _ _ _ hj, List.getD_cons_succ,
            getD_map_of_lt _ _ _ _ hi]
          rfl
        · have e1 : (toRecord (results.get ⟨i, hi⟩)
              ((sortPtrs pts).map ptrString)).getD j "" = "" := by
            refine getD_of_le _ _ ?_
            unfold toRecord
            rw [List.length_map, List.length_map]
            omega
          have e2 : ((sortPtrs pts).map (fun p => toTransposedRecord results
              (ptrString p) (styleRender style p))).getD j [] = [] :=
            getD_of_le _ _ (by rw [List.length_map]; omega)
          rw [e1, e2]
          rfl
      · have e1 : (results.map (fun r => toRecord r
            ((sortPtrs pts).map ptrString))).getD i [] = [] :=
          getD_of_le _ _ (by rw [List.length_map]; omega)
        rw [e1]
        by_cases hj : j < (sortPtrs pts).length
        · rw [getD_map_of_lt _ _ _ _ hj]
          unfold toTransposedRecord
          have e2 : (results.map (fun result =>
              match findVal result (ptrString ((sortPtrs pts).get ⟨j, hj⟩)) with
              | some v => toCellString v
              | none => "")).getD i "" = "" :=
            getD_of_le _ _ (by rw [List.length_map]; omega)
          rw [List.getD_cons_succ, e2]
          rfl
        · have e2 : ((sortPtrs pts).map (fun p => toTransposedRecord results
              (ptrString p) (styleRender style p))).getD j [] = [] :=
            getD_of_le _ _ (by rw [List.length_map]; omega)
          rw [e2]
          rfl

/-- Witness for C4 at the concrete two-record batch of the spec's
missing-field example. -/
theorem transpose_symmetry_w :
    [["/a", "/b"], ["1", ""], ["", "2"]].length
      = [[("/a", "1")], [("/b", "2")]].length + 1 ∧
    cellAt [["/a", "/b"], ["1", ""], ["", "2"]] 0 0
      = cellAt [["/a", "1", ""], ["/b", "", "2"]] 0 0 ∧
    cellAt [["/a", "/b"], ["1", ""], ["", "2"]] 2 0
      = cellAt [["/a", "1", ""], ["/b", "", "2"]] 0 2 := by
  obtain ⟨hl, hl2, hlr, hhdr, hcell⟩ := transpose_symmetry 0
    [[("/a", "1")], [("/b", "2")]]
    [["/a", "/b"], ["1", ""], ["", "2"]]
    [["/a", "1", ""], ["/b", "", "2"]] rfl rfl
  exact ⟨hl, hhdr 0, hcell 1 0⟩
